import Mathlib

/-!
Verification of `password_tool.py` (password-analyzer-wordlist).

The Python source is shallowly embedded below.  Python strings are Lean
`String`s operated on through their underlying `List Char`; Python `set`s of
strings become `Finset String`; Python `sorted` becomes an insertion sort
lifted to `Finset` (Python `sorted` is deterministic, and on a duplicate-free
set its output is the unique sorted enumeration, which insertion sort also
produces).  Python string comparison is lexicographic on code points, embedded
as `lexLe` below.  ASCII case conversion (`str.lower`, `str.upper`, ...) is
embedded per character with `Char.toLower` / `Char.toUpper`, which agree with
Python on ASCII input.  The floating-point entropy arithmetic of the fallback
analyzer is embedded over `ℝ`.
-/

namespace PasswordTool

/-- Python `str.lower()` (ASCII): lower every character. -/
def pyLower (s : String) : String := ⟨s.data.map Char.toLower⟩

/-- Python `str.upper()` (ASCII): upper every character. -/
def pyUpper (s : String) : String := ⟨s.data.map Char.toUpper⟩

/-- Python `str.capitalize()` (ASCII): first character uppercased, rest lowered. -/
def pyCapitalize (s : String) : String :=
  match s.data with
  | [] => ""
  | c :: cs => ⟨c.toUpper :: cs.map Char.toLower⟩

/-- Helper for `pyTitle`: the Boolean records whether the previous character
was alphabetic. -/
def pyTitleAux : Bool → List Char → List Char
  | _, [] => []
  | prevAlpha, c :: cs =>
    (if c.isAlpha then (if prevAlpha then c.toLower else c.toUpper) else c) ::
      pyTitleAux c.isAlpha cs

/-- Python `str.title()` (ASCII): uppercase each letter that does not follow a
letter, lowercase the other letters. -/
def pyTitle (s : String) : String := ⟨pyTitleAux false s.data⟩

/-- Python string `<=`: lexicographic comparison by code point. -/
def lexLe : List Char → List Char → Bool
  | [], _ => true
  | _ :: _, [] => false
  | a :: as, b :: bs => if a < b then true else if b < a then false else lexLe as bs

/-- Python `<=` on strings. -/
def strLe (a b : String) : Prop := lexLe a.data b.data = true

instance : DecidableRel strLe := fun a b => by unfold strLe; infer_instance

theorem lexLe_refl (l : List Char) : lexLe l l = true := by
  induction l with
  | nil => rfl
  | cons a as ih => simp [lexLe, ih]

theorem lexLe_total (l₁ l₂ : List Char) : lexLe l₁ l₂ = true ∨ lexLe l₂ l₁ = true := by
  induction l₁ generalizing l₂ with
  | nil => left; rfl
  | cons a as ih =>
    cases l₂ with
    | nil => right; rfl
    | cons b bs =>
      rcases lt_trichotomy a b with h | h | h
      · left; simp [lexLe, h]
      · subst h
        rcases ih bs with h' | h' <;> [left; right] <;> simp [lexLe, h']
      · right; simp [lexLe, h]

theorem lexLe_antisymm {l₁ l₂ : List Char} (h₁ : lexLe l₁ l₂ = true)
    (h₂ : lexLe l₂ l₁ = true) : l₁ = l₂ := by
  induction l₁ generalizing l₂ with
  | nil =>
    cases l₂ with
    | nil => rfl
    | cons b bs => simp [lexLe] at h₂
  | cons a as ih =>
    cases l₂ with
    | nil => simp [lexLe] at h₁
    | cons b bs =>
      rcases lt_trichotomy a b with h | h | h
      · simp [lexLe, h, asymm h] at h₂
      · subst h
        simp only [lexLe, lt_irrefl, if_false] at h₁ h₂
        exact congrArg (a :: ·) (ih h₁ h₂)
      · simp [lexLe, h, asymm h] at h₁

theorem lexLe_trans {l₁ l₂ l₃ : List Char} (h₁ : lexLe l₁ l₂ = true)
    (h₂ : lexLe l₂ l₃ = true) : lexLe l₁ l₃ = true := by
  induction l₁ generalizing l₂ l₃ with
  | nil => rfl
  | cons a as ih =>
    cases l₂ with
    | nil => simp [lexLe] at h₁
    | cons b bs =>
      cases l₃ with
      | nil => simp [lexLe] at h₂
      | cons c cs =>
        rcases lt_trichotomy a b with hab | hab | hab
        · rcases lt_trichotomy b c with hbc | hbc | hbc
          · simp [lexLe, hab.trans hbc]
          · subst hbc; simp [lexLe, hab]
          · simp [lexLe, hbc, asymm hbc] at h₂
        · subst hab
          rcases lt_trichotomy a c with hac | hac | hac
          · simp [lexLe, hac]
          · subst hac
            simp only [lexLe, lt_irrefl, if_false] at h₁ h₂ ⊢
            exact ih h₁ h₂
          · simp [lexLe, hac, asymm hac] at h₂
        · simp [lexLe, hab, asymm hab] at h₁

instance : IsTotal String strLe := ⟨fun a b => lexLe_total a.data b.data⟩

instance : IsTrans String strLe := ⟨fun _ _ _ h₁ h₂ => lexLe_trans h₁ h₂⟩

instance : IsAntisymm String strLe :=
  ⟨fun a b h₁ h₂ => by cases a; cases b; exact congrArg String.mk (lexLe_antisymm h₁ h₂)⟩

instance : IsRefl String strLe := ⟨fun a => lexLe_refl a.data⟩

/-- The ordering of the final wordlist: by length ascending, then
lexicographic ascending (Python sort key `(len(x), x)`). -/
def wlOrd (a b : String) : Prop :=
  a.length < b.length ∨ (a.length = b.length ∧ strLe a b)

instance : DecidableRel wlOrd := fun a b => by unfold wlOrd; infer_instance

instance : IsTotal String wlOrd := by
  constructor
  intro a b
  rcases Nat.lt_trichotomy a.length b.length with h | h | h
  · exact Or.inl (Or.inl h)
  · rcases total_of strLe a b with h' | h'
    · exact Or.inl (Or.inr ⟨h, h'⟩)
    · exact Or.inr (Or.inr ⟨h.symm, h'⟩)
  · exact Or.inr (Or.inl h)

instance : IsTrans String wlOrd := by
  constructor
  rintro a b c (h₁ | ⟨h₁, h₁'⟩) (h₂ | ⟨h₂, h₂'⟩)
  · exact Or.inl (h₁.trans h₂)
  · exact Or.inl (h₂ ▸ h₁)
  · exact Or.inl (h₁ ▸ h₂)
  · exact Or.inr ⟨h₁.trans h₂, lexLe_trans h₁' h₂'⟩

instance : IsAntisymm String wlOrd := by
  constructor
  rintro a b (h₁ | ⟨h₁, h₁'⟩) (h₂ | ⟨h₂, h₂'⟩)
  · exact absurd (h₁.trans h₂) (lt_irrefl _)
  · exact absurd h₁ (h₂ ▸ lt_irrefl _)
  · exact absurd h₂ (h₁ ▸ lt_irrefl _)
  · exact antisymm h₁' h₂'

/-- Deterministic sorted enumeration of a finite set of strings (Python
`sorted(s)` on a `set`), via insertion sort so that the kernel can evaluate
it on concrete inputs. -/
def finsetSort (r : String → String → Prop) [DecidableRel r] [IsTotal String r]
    [IsTrans String r] [IsAntisymm String r] (s : Finset String) : List String :=
  Quot.liftOn s.val (fun l => List.insertionSort r l) (fun l₁ l₂ h =>
    List.eq_of_perm_of_sorted
      (((List.perm_insertionSort r l₁).trans h).trans (List.perm_insertionSort r l₂).symm)
      (List.sorted_insertionSort r l₁) (List.sorted_insertionSort r l₂))

theorem finsetSort_length (r : String → String → Prop) [DecidableRel r]
    [IsTotal String r] [IsTrans String r] [IsAntisymm String r] (s : Finset String) :
    (finsetSort r s).length = s.card := by
  rcases s with ⟨m, hm⟩
  induction m using Quot.inductionOn with
  | h l => exact (List.perm_insertionSort r l).length_eq

theorem mem_finsetSort (r : String → String → Prop) [DecidableRel r]
    [IsTotal String r] [IsTrans String r] [IsAntisymm String r] (s : Finset String)
    (a : String) : a ∈ finsetSort r s ↔ a ∈ s := by
  rcases s with ⟨m, hm⟩
  induction m using Quot.inductionOn with
  | h l =>
    show a ∈ List.insertionSort r l ↔ _
    rw [(List.perm_insertionSort r l).mem_iff]
    rfl

theorem finsetSort_nodup (r : String → String → Prop) [DecidableRel r]
    [IsTotal String r] [IsTrans String r] [IsAntisymm String r] (s : Finset String) :
    (finsetSort r s).Nodup := by
  rcases s with ⟨m, hm⟩
  induction m using Quot.inductionOn with
  | h l => exact (List.perm_insertionSort r l).nodup_iff.mpr hm

theorem finsetSort_sorted (r : String → String → Prop) [DecidableRel r]
    [IsTotal String r] [IsTrans String r] [IsAntisymm String r] (s : Finset String) :
    List.Sorted r (finsetSort r s) := by
  rcases s with ⟨m, hm⟩
  induction m using Quot.inductionOn with
  | h l => exact List.sorted_insertionSort r l

/-- `LEET_MAP` of the source as an association list (Python `dict` of
lowercase letter to substitution-character list). -/
def LEET_LIST : List (Char × List Char) :=
  [('a', ['a', '4', '@']), ('e', ['e', '3']), ('i', ['i', '1', '!']),
   ('o', ['o', '0']), ('s', ['s', '5', '$']), ('t', ['t', '7']),
   ('g', ['g', '9']), ('b', ['b', '8']), ('l', ['l', '1'])]

/-- Dictionary lookup `LEET_MAP.get(c)`; `ch in LEET_MAP` is `(LEET_MAP ch).isSome`. -/
def LEET_MAP (c : Char) : Option (List Char) :=
  (LEET_LIST.find? (fun p => p.1 == c)).map Prod.snd

/-- `LEET_MAP[c]` for a key `c` (default `[]` is never hit on keys). -/
def mapList (c : Char) : List Char := (LEET_MAP c).getD []

/-- `case_variants` of the source: `{word, word.lower(), word.upper(),
word.capitalize(), word.title()}`. -/
def case_variants (word : String) : Finset String :=
  {word, pyLower word, pyUpper word, pyCapitalize word, pyTitle word}

/-- `positions = [(i, ch) for i, ch in enumerate(word.lower()) if ch in LEET_MAP]`. -/
def leetPositions (word : String) : List (Nat × Char) :=
  ((pyLower word).data.enum).filter (fun p => (LEET_MAP p.2).isSome)

/-- The second entry `LEET_MAP[c][1]` of a letter's substitution list. -/
def secondAlt (c : Char) : Char := (mapList c).getD 1 c

/-- The non-aggressive branch of `leet_variants`: for each substitutable
position `(pos, ch)` and each `choice_idx in range(1, min(len(LEET_MAP[ch]), 2))`,
produce `word` with position `pos` replaced by `LEET_MAP[ch][choice_idx]`. -/
def nonAggProduced (word : String) : List String :=
  (leetPositions word).flatMap (fun pc =>
    (List.range' 1 (min (mapList pc.2).length 2 - 1)).map (fun ci =>
      ⟨word.data.set pc.1 ((mapList pc.2).getD ci pc.2)⟩))

/-- `itertools.product(*[range n | n ∈ ns])` in Python's enumeration order
(last coordinate varies fastest). -/
def prodMasks : List Nat → List (List Nat)
  | [] => [[]]
  | n :: ns => (List.range n).flatMap (fun x => (prodMasks ns).map (x :: ·))

/-- `apply_variant` of the source: `s = list(word); for (pos, ch), ci in
zip(positions, mask): s[pos] = LEET_MAP[ch][ci]`. -/
def applyVariant (word : String) (positions : List (Nat × Char)) (mask : List Nat) : String :=
  ⟨(positions.zip mask).foldl (fun s x => s.set x.1.1 ((mapList x.1.2).getD x.2 x.1.2)) word.data⟩

/-- The aggressive enumeration loop of `leet_variants`: add `apply_variant mask`
for each mask in order, breaking as soon as `len(produced) >= cap`. -/
def aggLoop (word : String) (positions : List (Nat × Char)) (cap : Nat) :
    List (List Nat) → Finset String → Finset String
  | [], produced => produced
  | m :: ms, produced =>
    let produced' := insert (applyVariant word positions m) produced
    if cap ≤ produced'.card then produced' else aggLoop word positions cap ms produced'

/-- The `produced` set of the aggressive branch of `leet_variants`:
`rngs = [range(min(len(c), 3)) for c in choices]`, enumerated with early exit. -/
def aggProduced (word : String) (cap : Nat) : Finset String :=
  let positions := leetPositions word
  aggLoop word positions cap
    (prodMasks (positions.map (fun pc => min (mapList pc.2).length 3))) ∅

/-- `leet_variants` of the source.  Returns `{word}` when no character is
substitutable, else the union of `{word}` with the produced set of the
selected policy. -/
def leet_variants (word : String) (aggressive : Bool) (cap : Nat) : Finset String :=
  if (leetPositions word).isEmpty then {word}
  else if aggressive then insert word (aggProduced word cap)
  else insert word (nonAggProduced word).toFinset

/-- A separator character for `re.split(r"[,\s]+", ...)`: comma or whitespace
(Python's `\s` is modelled by `Char.isWhitespace`). -/
def isSepChar (c : Char) : Bool := c == ',' || c.isWhitespace

/-- Fuelled scanner behind `splitNonSep`; each step consumes at least one
character, so fuel equal to the list length never runs out. -/
def splitNonSepF : Nat → List Char → List String
  | 0, _ => []
  | _, [] => []
  | fuel + 1, c :: cs =>
    if isSepChar c then splitNonSepF fuel cs
    else
      ⟨(c :: cs).takeWhile (fun d => !isSepChar d)⟩ ::
        splitNonSepF fuel ((c :: cs).dropWhile (fun d => !isSepChar d))

/-- Splitting on runs of comma/whitespace: the maximal runs of non-separator
characters.  (`re.split` can additionally return empty fragments at the two
ends; every caller in the source filters those out, so they are dropped here.) -/
def splitNonSep (l : List Char) : List String := splitNonSepF l.length l

/-- `tokenize_keywords` of the source: split on comma/whitespace runs and drop
empty fragments. -/
def tokenize_keywords (raw : Option String) : List String :=
  match raw with
  | none => []
  | some r => if r = "" then [] else splitNonSep r.data

/-- Four consecutive decimal digits (`\d{4}`), returning them and the rest. -/
def takeDigits4 (cs : List Char) : Option (List Char × List Char) :=
  match cs with
  | a :: b :: c :: d :: rest =>
    if a.isDigit ∧ b.isDigit ∧ c.isDigit ∧ d.isDigit then some ([a, b, c, d], rest)
    else none
  | _ => none

/-- Decimal value of a digit run (`int(...)` on the matched group). -/
def digitsToNat (ds : List Char) : Nat :=
  ds.foldl (fun n c => 10 * n + (c.toNat - '0'.toNat)) 0

/-- `re.match(r"^\s*(\d{4})\s*-\s*(\d{4})\s*$", years)`: the strict START-END
range pattern, returning the two 4-digit groups as numbers.  The pattern is
deterministic (whitespace, `-` and digits are disjoint character classes), so
it is embedded as a straight-line parser. -/
def parseRangeStrict (s : String) : Option (Nat × Nat) :=
  match takeDigits4 (s.data.dropWhile Char.isWhitespace) with
  | none => none
  | some (d1, rest) =>
    match rest.dropWhile Char.isWhitespace with
    | '-' :: rest2 =>
      match takeDigits4 (rest2.dropWhile Char.isWhitespace) with
      | none => none
      | some (d2, rest3) =>
        if (rest3.dropWhile Char.isWhitespace).isEmpty then
          some (digitsToNat d1, digitsToNat d2)
        else none
    | _ => none

/-- Fuelled scanner behind `findall24`; each step consumes at least one
character, so fuel equal to the list length never runs out. -/
def findall24F : Nat → List Char → List (List Char)
  | 0, _ => []
  | _, [] => []
  | fuel + 1, c :: cs =>
    let ds := (c :: cs).takeWhile Char.isDigit
    if 2 ≤ ds.length then
      ds.take 4 :: findall24F fuel ((c :: cs).drop (ds.take 4).length)
    else findall24F fuel cs

/-- `re.findall(r"(\d{2,4})", ...)`: scan left to right; at a position opening
a digit run, greedily match up to 4 digits (at least 2) and continue after the
match, otherwise advance one character. -/
def findall24 (l : List Char) : List (List Char) := findall24F l.length l

/-- Fuelled scanner behind `findAllDigitRuns`; each step consumes at least one
character, so fuel equal to the list length never runs out. -/
def findAllDigitRunsF : Nat → List Char → List String
  | 0, _ => []
  | _, [] => []
  | fuel + 1, c :: cs =>
    if c.isDigit then
      ⟨(c :: cs).takeWhile Char.isDigit⟩ ::
        findAllDigitRunsF fuel ((c :: cs).dropWhile Char.isDigit)
    else findAllDigitRunsF fuel cs

/-- `re.findall(r"\d+", ...)`: the maximal runs of decimal digits. -/
def findAllDigitRuns (l : List Char) : List String := findAllDigitRunsF l.length l

/-- `str(y)` for the year integers (Python decimal rendering of a
nonnegative integer). -/
def natStr (y : Nat) : String := toString y

/-- `parse_years` of the source.  `years`/`dob` are optional strings; Python's
truthiness test `if years:` makes the empty string act like absence. -/
def parse_years (years : Option String) (dob : Option String) : List String :=
  let out1 : Finset String :=
    match years with
    | none => ∅
    | some ys =>
      if ys = "" then ∅
      else
        match parseRangeStrict ys with
        | some (s, e) => ((List.range' s (e + 1 - s)).map natStr).toFinset
        | none =>
          ((splitNonSep ys.data).filter
            (fun y => y.data.all Char.isDigit && (y.length == 2 || y.length == 4))).toFinset
  let out2 : Finset String :=
    match dob with
    | none => ∅
    | some d =>
      if d = "" then ∅
      else
        let m := findall24 d.data
        let digits := m.flatten
        let compound : Finset String :=
          if 8 ≤ digits.length then {⟨digits.take 8⟩} else ∅
        compound ∪
          ((m.filter (fun t => t.length == 2 || t.length == 4)).map
            (fun t => (⟨t⟩ : String))).toFinset
  finsetSort strLe (out1 ∪ out2)

/-- `build_bases` of the source: case variants of each non-empty keyword, both
orderings of every separator-joined pair of distinct keywords, and the maximal
digit runs of the date-of-birth string. -/
def build_bases (keywords : List String) (dob : Option String)
    (separators : List String) : Finset String :=
  let kws := keywords.filter (fun k => k ≠ "")
  let b1 : Finset String := kws.foldl (fun bs w => bs ∪ case_variants w) ∅
  let joins : List String :=
    separators.flatMap (fun sep =>
      (List.range kws.length).flatMap (fun i =>
        (List.range' (i + 1) (kws.length - (i + 1))).flatMap (fun j =>
          [kws.getD i "" ++ sep ++ kws.getD j "", kws.getD j "" ++ sep ++ kws.getD i ""])))
  let b2 := b1 ∪ joins.toFinset
  match dob with
  | none => b2
  | some d => if d = "" then b2 else b2 ∪ (findAllDigitRuns d.data).toFinset

/-- `maybe_add` of the source: insert the candidate when its length lies in
the window `[4, 64]`. -/
def maybe_add (out : Finset String) (candidate : String) : Finset String :=
  if 4 ≤ candidate.length ∧ candidate.length ≤ 64 then insert candidate out else out

/-- The expansion loop of `generate_wordlist`: union in `leet_variants(b, cap=12)`
for each base, breaking once the accumulated set exceeds `max_candidates`.
Set iteration order is unspecified in Python; per the specification the bases
are iterated in sorted order. -/
def expandLoop (aggressive : Bool) (maxc : Nat) :
    List String → Finset String → Finset String
  | [], expanded => expanded
  | b :: bs, expanded =>
    let expanded' := expanded ∪ leet_variants b aggressive 12
    if maxc < expanded'.card then expanded'
    else expandLoop aggressive maxc bs expanded'

/-- Body of `generate_wordlist` after the leet mode has been resolved to a
Boolean.  The four emission loops (plain, base+year/year+base, base+suffix,
base+year+suffix) are folds of `maybe_add` over the expanded set (iterated in
sorted order; the accumulated `out` is a set, so iteration order cannot change
it). -/
def generateCore (keywords : List String) (dob : Option String) (years : List String)
    (aggressive : Bool) (suffixes : List String) (separators : List String)
    (max_candidates : Nat) : List String :=
  let bases := build_bases keywords dob separators
  let expanded := expandLoop aggressive max_candidates (finsetSort strLe bases) ∅
  let el := finsetSort strLe expanded
  let out1 := el.foldl maybe_add (∅ : Finset String)
  let out2 := el.foldl (fun o b =>
    years.foldl (fun o y => maybe_add (maybe_add o (b ++ y)) (y ++ b)) o) out1
  let out3 := el.foldl (fun o b =>
    suffixes.foldl (fun o sf => maybe_add o (b ++ sf)) o) out2
  let out4 := el.foldl (fun o b =>
    years.foldl (fun o y =>
      suffixes.foldl (fun o sf => maybe_add o (b ++ y ++ sf)) o) o) out3
  (finsetSort wlOrd out4).take max_candidates

/-- `generate_wordlist` of the source; `aggressive = (leet_mode.lower() == "aggressive")`. -/
def generate_wordlist (keywords : List String) (dob : Option String) (years : List String)
    (leet_mode : String) (suffixes : List String) (separators : List String)
    (max_candidates : Nat) : List String :=
  generateCore keywords dob years (pyLower leet_mode == "aggressive")
    suffixes separators max_candidates

/-- Feedback record of an analysis result (the `feedback` dict). -/
structure Feedback where
  warning : String
  suggestions : List String

/-- Normalized result of `analyze_password` (the dict returned by the source).
The `entropy_bits_est` field is stored unrounded; the source rounds it to two
decimals for display only. -/
structure StrengthResult where
  engine : String
  score : Nat
  entropy_bits_est : ℝ
  feedback : Feedback

/-- `entropy_estimate` of the source, over `ℝ`: `len(password) * log2(94)`
bits, `0.0` for the empty password. -/
noncomputable def entropy_estimate (password : String) : ℝ :=
  if password = "" then 0 else (password.length : ℝ) * Real.logb 2 94

/-- The heuristic score thresholds of the fallback branch of `analyze_password`. -/
noncomputable def fallbackScore (ent : ℝ) : Nat :=
  if ent < 28 then 0
  else if ent < 36 then 1
  else if ent < 60 then 2
  else if ent < 80 then 3
  else 4

/-- The fixed fallback warning string of the source. -/
def fallbackWarning : String :=
  "Using fallback estimator. Install \x27zxcvbn\x27 for richer results."

/-- The three fixed fallback suggestions of the source. -/
def fallbackSuggestions : List String :=
  ["Use longer passphrases (3–5+ random words).",
   "Avoid personal info and common patterns.",
   "Include variety (case, digits, symbols) but prioritize length."]

/-- `analyze_password` of the source.  The zxcvbn engine is an external
collaborator; it is modelled as a function argument that is consulted only
when `zxcvbn_available` (the module-level capability probe) is true. -/
noncomputable def analyze_password (zxcvbn_available : Bool)
    (zxcvbnEngine : String → List String → StrengthResult)
    (password : String) (user_inputs : List String) : StrengthResult :=
  if zxcvbn_available then zxcvbnEngine password user_inputs
  else
    { engine := "entropy_fallback"
      score := fallbackScore (entropy_estimate password)
      entropy_bits_est := entropy_estimate password
      feedback := { warning := fallbackWarning, suggestions := fallbackSuggestions } }

/-! ### Lemmas about the leet expander -/

theorem foldl_set_length (f : (Nat × Char) × Nat → Char)
    (l : List ((Nat × Char) × Nat)) :
    ∀ s : List Char, (l.foldl (fun s x => s.set x.1.1 (f x)) s).length = s.length := by
  induction l with
  | nil => intro s; rfl
  | cons a l ih =>
    intro s
    rw [List.foldl_cons, ih, List.length_set]

theorem applyVariant_length (word : String) (positions : List (Nat × Char))
    (mask : List Nat) : (applyVariant word positions mask).length = word.length := by
  show ((positions.zip mask).foldl _ word.data).length = word.data.length
  exact foldl_set_length (fun x => (mapList x.1.2).getD x.2 x.1.2) _ word.data

theorem aggLoop_mem {word : String} {positions : List (Nat × Char)} {cap : Nat} :
    ∀ {ms : List (List Nat)} {produced : Finset String} {x : String},
      x ∈ aggLoop word positions cap ms produced →
      x ∈ produced ∨ ∃ m, x = applyVariant word positions m := by
  intro ms
  induction ms with
  | nil => intro produced x hx; exact Or.inl hx
  | cons m ms ih =>
    intro produced x hx
    unfold aggLoop at hx
    dsimp only [] at hx
    split at hx
    · rcases Finset.mem_insert.mp hx with h | h
      · exact Or.inr ⟨m, h⟩
      · exact Or.inl h
    · rcases ih hx with h | h
      · rcases Finset.mem_insert.mp h with h' | h'
        · exact Or.inr ⟨m, h'⟩
        · exact Or.inl h'
      · exact Or.inr h

theorem aggLoop_card_le {word : String} {positions : List (Nat × Char)} {cap : Nat} :
    ∀ {ms : List (List Nat)} {produced : Finset String}, produced.card < cap →
      (aggLoop word positions cap ms produced).card ≤ cap := by
  intro ms
  induction ms with
  | nil => intro produced h; exact h.le
  | cons m ms ih =>
    intro produced h
    unfold aggLoop
    dsimp only []
    have hins : (insert (applyVariant word positions m) produced).card ≤ cap :=
      le_trans (Finset.card_insert_le _ _) h
    split
    · exact hins
    · next hlt => exact ih (lt_of_not_le hlt)

theorem nonAggProduced_mem {word v : String} (hv : v ∈ nonAggProduced word) :
    ∃ p ∈ leetPositions word, v = ⟨word.data.set p.1 (secondAlt p.2)⟩ := by
  rw [nonAggProduced, List.mem_flatMap] at hv
  rcases hv with ⟨p, hp, hv⟩
  rcases List.mem_map.mp hv with ⟨ci, hci, rfl⟩
  rcases List.mem_range'_1.mp hci with ⟨h1, h2⟩
  have hci1 : ci = 1 := by omega
  subst hci1
  exact ⟨p, hp, rfl⟩

theorem leetPositions_spec {word : String} {p : Nat × Char}
    (hp : p ∈ leetPositions word) :
    p.1 < word.data.length ∧ p.2 = (word.data.getD p.1 ' ').toLower ∧
      (LEET_MAP p.2).isSome = true := by
  rw [leetPositions, List.mem_filter] at hp
  rcases hp with ⟨hmem, hkey⟩
  rcases p with ⟨i, ch⟩
  have h := List.mem_enum hmem
  rcases h with ⟨hlen, hch⟩
  have hlen' : i < word.data.length := by
    simpa [pyLower] using hlen
  refine ⟨hlen', ?_, hkey⟩
  have : (pyLower word).data[i] = word.data[i].toLower := by
    simp [pyLower]
  rw [hch, this, List.getD_eq_getElem _ _ hlen']

theorem LEET_MAP_keys {ch : Char} (hk : (LEET_MAP ch).isSome = true) :
    ch = 'a' ∨ ch = 'e' ∨ ch = 'i' ∨ ch = 'o' ∨ ch = 's' ∨ ch = 't' ∨
      ch = 'g' ∨ ch = 'b' ∨ ch = 'l' := by
  unfold LEET_MAP at hk
  rcases hfind : LEET_LIST.find? (fun p => p.1 == ch) with _ | p
  · rw [hfind] at hk; simp at hk
  · have hp := List.mem_of_find?_eq_some hfind
    have hq := List.find?_some hfind
    have hc : ch = p.1 := by
      have := of_decide_eq_true hq
      exact this.symm
    simp only [LEET_LIST, List.mem_cons, List.not_mem_nil, or_false] at hp
    rcases hp with h | h | h | h | h | h | h | h | h <;> subst h <;> simp [hc]

theorem secondAlt_ne {ch o : Char} (hk : (LEET_MAP ch).isSome = true)
    (ho : o.toLower = ch) : secondAlt ch ≠ o := by
  rcases LEET_MAP_keys hk with h | h | h | h | h | h | h | h | h <;>
    (subst h; intro heq; rw [← heq] at ho; exact absurd ho (by decide))

/-- Claim C10: every string produced by `leet_variants` has the same length as
the input word, because every substitution replaces one character by one
character. -/
theorem leet_variants_length (w : String) (aggressive : Bool) (cap : Nat) :
    ∀ v ∈ leet_variants w aggressive cap, v.length = w.length := by
  intro v hv
  unfold leet_variants at hv
  split at hv
  · rw [Finset.mem_singleton.mp hv]
  · split at hv
    · rcases Finset.mem_insert.mp hv with h | h
      · rw [h]
      · rcases aggLoop_mem h with h' | ⟨m, rfl⟩
        · simp at h'
        · exact applyVariant_length w _ m
    · rcases Finset.mem_insert.mp hv with h | h
      · rw [h]
      · rcases nonAggProduced_mem (List.mem_toFinset.mp h) with ⟨p, hp, rfl⟩
        show (w.data.set p.1 (secondAlt p.2)).length = w.data.length
        exact List.length_set w.data p.1 _

/-- Witness for C10 at a concrete input. -/
theorem leet_variants_length_witness : ("te5t" : String).length = ("test" : String).length :=
  leet_variants_length "test" false 12 "te5t" (by decide)

/-- Claim C5: in non-aggressive mode `leet_variants` always contains the word
itself, and every other element arises from the word by replacing exactly one
substitutable position with the second entry of that letter's `LEET_MAP` list:
it carries the second entry at that position, differs from the original there,
and agrees with the original everywhere else. -/
theorem leet_variants_nonaggressive (w : String) (cap : Nat) :
    w ∈ leet_variants w false cap ∧
    ∀ v ∈ leet_variants w false cap, v ≠ w →
      ∃ p ∈ leetPositions w,
        v = ⟨w.data.set p.1 (secondAlt p.2)⟩ ∧
        v.data.getD p.1 ' ' = secondAlt p.2 ∧
        w.data.getD p.1 ' ' ≠ secondAlt p.2 ∧
        ∀ j, j ≠ p.1 → v.data.getD j ' ' = w.data.getD j ' ' := by
  constructor
  · unfold leet_variants
    split
    · exact Finset.mem_singleton_self w
    · exact Finset.mem_insert_self w _
  · intro v hv hvw
    have hprod : v ∈ nonAggProduced w := by
      unfold leet_variants at hv
      split at hv
      · exact absurd (Finset.mem_singleton.mp hv) hvw
      · rcases Finset.mem_insert.mp hv with h | h
        · exact absurd h hvw
        · exact List.mem_toFinset.mp h
    rcases nonAggProduced_mem hprod with ⟨p, hp, rfl⟩
    rcases leetPositions_spec hp with ⟨hlen, hlow, hkey⟩
    refine ⟨p, hp, rfl, ?_, ?_, ?_⟩
    · show (w.data.set p.1 (secondAlt p.2)).getD p.1 ' ' = secondAlt p.2
      rw [List.getD_eq_getElem?_getD, List.getElem?_set_self (by simpa using hlen)]
      rfl
    · exact fun h => (secondAlt_ne hkey hlow.symm) h.symm
    · intro j hj
      show (w.data.set p.1 (secondAlt p.2)).getD j ' ' = w.data.getD j ' '
      rw [List.getD_eq_getElem?_getD, List.getElem?_set_ne (Ne.symm hj),
        ← List.getD_eq_getElem?_getD]

/-- Witness for C5 at a concrete input. -/
theorem leet_variants_nonaggressive_witness :
    "naman" ∈ leet_variants "naman" false 16 ∧
    ∃ p ∈ leetPositions "naman",
      ("n4man" : String) = ⟨"naman".data.set p.1 (secondAlt p.2)⟩ ∧
      ("n4man" : String).data.getD p.1 ' ' = secondAlt p.2 ∧
      "naman".data.getD p.1 ' ' ≠ secondAlt p.2 ∧
      ∀ j, j ≠ p.1 →
        ("n4man" : String).data.getD j ' ' = "naman".data.getD j ' ' :=
  ⟨(leet_variants_nonaggressive "naman" 16).1,
    (leet_variants_nonaggressive "naman" 16).2 "n4man" (by decide) (by decide)⟩

/-- Counterexample to claim C4 as stated: with `cap = 0` the aggressive loop
still inserts one variant before the first cap check, so the produced set has
1 > 0 elements and the returned set has 2 > 0 + 1 elements. -/
theorem aggressive_cap_counterexample :
    ¬ ((aggProduced "A" 0).card ≤ 0 ∧ (leet_variants "A" true 0).card ≤ 0 + 1) := by
  decide

/-- Claim C4 (amended to `1 ≤ cap`): in aggressive mode the enumeration stops
as soon as the produced set reaches `cap`, so the produced set has at most
`cap` elements and the returned union has at most `cap + 1`. -/
theorem aggressive_cap_bound (w : String) (cap : Nat) (hcap : 1 ≤ cap) :
    (aggProduced w cap).card ≤ cap ∧ (leet_variants w true cap).card ≤ cap + 1 := by
  have hprod : (aggProduced w cap).card ≤ cap := by
    unfold aggProduced
    exact aggLoop_card_le (by simpa using hcap)
  refine ⟨hprod, ?_⟩
  unfold leet_variants
  split
  · simp
  · calc (insert w (aggProduced w cap)).card ≤ (aggProduced w cap).card + 1 :=
        Finset.card_insert_le _ _
    _ ≤ cap + 1 := by omega

/-- Witness for C4 (amended) at a concrete input. -/
theorem aggressive_cap_bound_witness :
    (aggProduced "leet" 12).card ≤ 12 ∧ (leet_variants "leet" true 12).card ≤ 12 + 1 :=
  aggressive_cap_bound "leet" 12 (by decide)

/-- Claim C3: `leet_mode = "off"` takes the same non-aggressive path as
`leet_mode = "basic"`, so `generate_wordlist` returns identical lists. -/
theorem generate_wordlist_off_eq_basic (keywords : List String) (dob : Option String)
    (years : List String) (suffixes separators : List String) (max_candidates : Nat) :
    generate_wordlist keywords dob years "off" suffixes separators max_candidates =
      generate_wordlist keywords dob years "basic" suffixes separators max_candidates := by
  unfold generate_wordlist
  rw [show (pyLower "off" == "aggressive") = (pyLower "basic" == "aggressive") from by decide]

/-! ### Lemmas about the wordlist assembler -/

/-- The length window enforced by `maybe_add`. -/
def lenOK (x : String) : Prop := 4 ≤ x.length ∧ x.length ≤ 64

theorem maybe_add_mem {o : Finset String} {c x : String}
    (hx : x ∈ maybe_add o c) : x ∈ o ∨ lenOK x := by
  unfold maybe_add at hx
  split at hx
  · next hc =>
    rcases Finset.mem_insert.mp hx with h | h
    · exact Or.inr (h ▸ hc)
    · exact Or.inl h
  · exact Or.inl hx

theorem foldl_lenOK {β : Type} {g : Finset String → β → Finset String}
    (hg : ∀ o b x, x ∈ g o b → x ∈ o ∨ lenOK x) :
    ∀ (l : List β) (o : Finset String) (x : String),
      x ∈ l.foldl g o → x ∈ o ∨ lenOK x := by
  intro l
  induction l with
  | nil => intro o x hx; exact Or.inl hx
  | cons b bs ih =>
    intro o x hx
    rw [List.foldl_cons] at hx
    rcases ih (g o b) x hx with h | h
    · exact hg o b x h
    · exact Or.inr h

theorem generateCore_out_lenOK (keywords : List String) (dob : Option String)
    (years : List String) (aggressive : Bool) (suffixes separators : List String)
    (max_candidates : Nat) :
    ∀ x ∈ generateCore keywords dob years aggressive suffixes separators max_candidates,
      lenOK x := by
  intro x hx
  unfold generateCore at hx
  have hx' := (List.take_sublist _ _).subset hx
  rw [mem_finsetSort] at hx'
  have h4 := foldl_lenOK (g := fun o b =>
      years.foldl (fun o y =>
        suffixes.foldl (fun o sf => maybe_add o (b ++ y ++ sf)) o) o)
    (fun o b x hx => foldl_lenOK (fun o y x hx =>
      foldl_lenOK (fun o sf x hx => maybe_add_mem hx) _ o x hx) _ o x hx) _ _ x hx'
  rcases h4 with h4 | h4
  case inr => exact h4
  have h3 := foldl_lenOK (g := fun o b =>
      suffixes.foldl (fun o sf => maybe_add o (b ++ sf)) o)
    (fun o b x hx => foldl_lenOK (fun o sf x hx => maybe_add_mem hx) _ o x hx) _ _ x h4
  rcases h3 with h3 | h3
  case inr => exact h3
  have h2 := foldl_lenOK (g := fun o b =>
      years.foldl (fun o y => maybe_add (maybe_add o (b ++ y)) (y ++ b)) o)
    (fun o b x hx => foldl_lenOK (fun o y x hx => by
      rcases maybe_add_mem hx with h | h
      · exact maybe_add_mem h
      · exact Or.inr h) _ o x hx) _ _ x h3
  rcases h2 with h2 | h2
  case inr => exact h2
  have h1 := foldl_lenOK (g := maybe_add) (fun o c x hx => maybe_add_mem hx) _ _ x h2
  rcases h1 with h1 | h1
  · exact absurd h1 (Finset.not_mem_empty x)
  · exact h1

/-- Claim C1: for every input, `generate_wordlist` returns a duplicate-free
list whose elements all have length in `[4, 64]`, sorted by length ascending
then lexicographically ascending (`wlOrd`), of size at most `max_candidates`. -/
theorem generate_wordlist_shape (keywords : List String) (dob : Option String)
    (years : List String) (leet_mode : String) (suffixes separators : List String)
    (max_candidates : Nat) :
    (generate_wordlist keywords dob years leet_mode suffixes separators
        max_candidates).Nodup ∧
    (∀ x ∈ generate_wordlist keywords dob years leet_mode suffixes separators
        max_candidates, 4 ≤ x.length ∧ x.length ≤ 64) ∧
    List.Sorted wlOrd (generate_wordlist keywords dob years leet_mode suffixes
        separators max_candidates) ∧
    (generate_wordlist keywords dob years leet_mode suffixes separators
        max_candidates).length ≤ max_candidates := by
  refine ⟨?_, ?_, ?_, ?_⟩
  · exact (List.take_sublist _ _).nodup (finsetSort_nodup _ _)
  · exact fun x hx => generateCore_out_lenOK keywords dob years _ suffixes separators
      max_candidates x hx
  · exact List.Pairwise.sublist (List.take_sublist _ _) (finsetSort_sorted _ _)
  · unfold generate_wordlist generateCore
    rw [List.length_take]
    omega

/-- Witness for C1 at a concrete input. -/
theorem generate_wordlist_shape_witness :
    "Test" ∈ generate_wordlist ["test"] none [] "off" [] [] 10 ∧
    4 ≤ ("Test" : String).length ∧ ("Test" : String).length ≤ 64 :=
  ⟨by decide,
    (generate_wordlist_shape ["test"] none [] "off" [] [] 10).2.1 "Test" (by decide)⟩

/-- Claim C2: the end-to-end example.  The generated list contains
`"naman2024"`, `"2024naman"`, `"naman!"` and `"naman2024!"`, and every
candidate has length in `[4, 64]`. -/
theorem generate_wordlist_end_to_end :
    "naman2024" ∈ generate_wordlist ["naman"] none ["2024"] "basic" ["!"] [] 1000 ∧
    "2024naman" ∈ generate_wordlist ["naman"] none ["2024"] "basic" ["!"] [] 1000 ∧
    "naman!" ∈ generate_wordlist ["naman"] none ["2024"] "basic" ["!"] [] 1000 ∧
    "naman2024!" ∈ generate_wordlist ["naman"] none ["2024"] "basic" ["!"] [] 1000 ∧
    (generate_wordlist ["naman"] none ["2024"] "basic" ["!"] [] 1000).all
      (fun x => decide (4 ≤ x.length ∧ x.length ≤ 64)) = true := by
  refine ⟨by decide, by decide, by decide, by decide, by decide⟩

/-! ### Claims about `parse_years` -/

/-- Claim C6: when `years_expr` matches the strict 4-digit START-END range
pattern, `parse_years` emits the decimal string of every integer in
`[START, END]`; in particular `parse_years "2018-2025" none` is exactly the
eight year strings 2018 through 2025. -/
theorem parse_years_range (ys : String) (s e : Nat)
    (h : parseRangeStrict ys = some (s, e)) :
    (∀ y : Nat, s ≤ y → y ≤ e → natStr y ∈ parse_years (some ys) none) ∧
    parse_years (some "2018-2025") none =
      ["2018", "2019", "2020", "2021", "2022", "2023", "2024", "2025"] := by
  constructor
  · intro y hs hy
    have hys : ys ≠ "" := by
      intro h0
      subst h0
      rw [show parseRangeStrict "" = none from rfl] at h
      cases h
    unfold parse_years
    rw [mem_finsetSort]
    dsimp only []
    rw [if_neg hys, h]
    refine Finset.mem_union_left _ ?_
    rw [List.mem_toFinset, List.mem_map]
    refine ⟨y, List.mem_range'_1.mpr ⟨hs, by omega⟩, rfl⟩
  · decide

/-- Witness for C6 at a concrete input. -/
theorem parse_years_range_witness :
    natStr 2020 ∈ parse_years (some "2018-2025") none :=
  (parse_years_range "2018-2025" 2018 2025 (by decide)).1 2020 (by decide) (by decide)

/-- Claim C7: with a dob expression, `parse_years` extracts the digit runs of
length 2-4 (`findall24`), adds the first 8 digits of their concatenation as a
compound token when that concatenation has at least 8 digits, and adds every
extracted run of length 2 or 4; in particular for "2002-08-09" the result is
exactly {"08", "09", "2002", "20020809"} (sorted). -/
theorem parse_years_dob (d : String) (hd : d ≠ "") :
    (8 ≤ (findall24 d.data).flatten.length →
      (⟨(findall24 d.data).flatten.take 8⟩ : String) ∈ parse_years none (some d)) ∧
    (∀ t ∈ findall24 d.data, t.length = 2 ∨ t.length = 4 →
      (⟨t⟩ : String) ∈ parse_years none (some d)) ∧
    parse_years none (some "2002-08-09") = ["08", "09", "2002", "20020809"] := by
  refine ⟨?_, ?_, by decide⟩
  · intro h8
    unfold parse_years
    rw [mem_finsetSort]
    dsimp only []
    rw [if_neg hd]
    refine Finset.mem_union_right _ (Finset.mem_union_left _ ?_)
    rw [if_pos h8]
    exact Finset.mem_singleton_self _
  · intro t ht htl
    unfold parse_years
    rw [mem_finsetSort]
    dsimp only []
    rw [if_neg hd]
    refine Finset.mem_union_right _ (Finset.mem_union_right _ ?_)
    rw [List.mem_toFinset, List.mem_map]
    refine ⟨t, List.mem_filter.mpr ⟨ht, ?_⟩, rfl⟩
    rcases htl with h | h <;> simp [h]

/-- Witness for C7 at a concrete input. -/
theorem parse_years_dob_witness :
    (⟨(findall24 ("2002-08-09" : String).data).flatten.take 8⟩ : String) ∈
      parse_years none (some "2002-08-09") ∧
    (⟨("2002" : String).data⟩ : String) ∈ parse_years none (some "2002-08-09") :=
  ⟨(parse_years_dob "2002-08-09" (by decide)).1 (by decide),
    (parse_years_dob "2002-08-09" (by decide)).2.1 "2002".data (by decide) (by decide)⟩

/-! ### Claims about the analyzer -/

/-- Claim C8: when the external engine is unavailable, `analyze_password`
always returns a result (no error path) whose engine field is
`"entropy_fallback"` and whose feedback carries the fixed non-empty warning
recommending the richer engine. -/
theorem analyze_password_fallback (zxcvbnEngine : String → List String → StrengthResult)
    (password : String) (user_inputs : List String) :
    (analyze_password false zxcvbnEngine password user_inputs).engine =
      "entropy_fallback" ∧
    (analyze_password false zxcvbnEngine password user_inputs).feedback.warning =
      fallbackWarning ∧
    fallbackWarning ≠ "" :=
  ⟨rfl, rfl, by decide⟩

theorem logb_two_94_lt : Real.logb 2 94 < 7.5 := by
  rw [Real.logb_lt_iff_lt_rpow (by norm_num) (by norm_num)]
  have h1 : (94 : ℝ) < 2 ^ ((7 : ℕ) : ℝ) := by
    rw [Real.rpow_natCast]
    norm_num
  refine h1.trans_le ((Real.rpow_le_rpow_left_iff (by norm_num)).mpr ?_)
  push_cast
  norm_num

theorem logb_two_94_ge : 4.5 ≤ Real.logb 2 94 := by
  rw [Real.le_logb_iff_rpow_le (by norm_num) (by norm_num)]
  have h1 : (2 : ℝ) ^ (4.5 : ℝ) ≤ 2 ^ ((5 : ℕ) : ℝ) := by
    refine (Real.rpow_le_rpow_left_iff (by norm_num)).mpr ?_
    push_cast
    norm_num
  refine h1.trans ?_
  rw [Real.rpow_natCast]
  norm_num

/-- Claim C9: the entropy fallback numerics: the empty password has estimate
0.0, a non-empty password `p` has estimate `len(p) * log2 94`, and the
8-character password "abcdefgh" (about 52.44 bits) lands in the `< 60`
bracket, fallback score 2. -/
theorem entropy_fallback_values (p : String) (hp : p ≠ "") :
    entropy_estimate "" = 0 ∧
    entropy_estimate p = (p.length : ℝ) * Real.logb 2 94 ∧
    fallbackScore (entropy_estimate "abcdefgh") = 2 := by
  have e8 : entropy_estimate "abcdefgh" = 8 * Real.logb 2 94 := by
    rw [entropy_estimate, if_neg (by decide),
      show ("abcdefgh" : String).length = 8 from by decide]
    norm_num
  refine ⟨by rw [entropy_estimate, if_pos rfl], by rw [entropy_estimate, if_neg hp], ?_⟩
  rw [e8]
  unfold fallbackScore
  rw [if_neg (not_lt.mpr (by linarith [logb_two_94_ge])),
    if_neg (not_lt.mpr (by linarith [logb_two_94_ge])),
    if_pos (by linarith [logb_two_94_lt])]

/-- Witness for C9 at a concrete input. -/
theorem entropy_fallback_values_witness :
    entropy_estimate "" = 0 ∧
    entropy_estimate "abcdefgh" = (("abcdefgh" : String).length : ℝ) * Real.logb 2 94 ∧
    fallbackScore (entropy_estimate "abcdefgh") = 2 :=
  entropy_fallback_values "abcdefgh" (by decide)

end PasswordTool
